import Mathlib

/-!
A shallow embedding of `src/parser.rs` (crate `http-parser`): a type-state
HTTP/1.1 request parser over an immutable input buffer.

The packet is modelled as a `List Nat` of bytes (the Rust code scans
`&str` contents byte by byte via `as_bytes`).  Every Rust loop that can
index past the end of the byte slice — `bytes[curr]` / `bytes[curr + 1]`
without a bounds check, or a slice `&s[i..]` with `i > len` — panics at
runtime; such an outcome is modelled as `none`, while a normal return is
`some _`.  The fallible transitions return `Option (Except ParsingError _)`:
the outer `Option` models panic/no-panic, the inner `Except` models the
Rust `Result`.
-/

/-- Byte constants from the top of `parser.rs`. -/
def SPACE : Nat := 32
def COLON : Nat := 58
def CR : Nat := 13
def LF : Nat := 10
def TAB : Nat := 9

/-- ASCII bytes of a string literal, as the Rust `as_bytes` view. -/
def bytesOf (s : String) : List Nat := s.data.map Char.toNat

/-- `is_crlf`: check if a pair of bytes is CR LF. -/
def is_crlf (a b : Nat) : Bool := a == CR && b == LF

/-- `is_whitespace`: byte is one of space, LF, CR, tab. -/
def is_whitespace (b : Nat) : Bool := b == SPACE || b == LF || b == CR || b == TAB

/-- `is_valid_method`: the closed set of eight request methods. -/
def is_valid_method (m : List Nat) : Bool :=
  m == bytesOf "OPTIONS" || m == bytesOf "GET" || m == bytesOf "HEAD" ||
  m == bytesOf "POST" || m == bytesOf "PUT" || m == bytesOf "DELETE" ||
  m == bytesOf "TRACE" || m == bytesOf "CONNECT"

/-- `is_valid_version`: the closed set of four version tokens. -/
def is_valid_version (v : List Nat) : Bool :=
  v == bytesOf "HTTP/1" || v == bytesOf "HTTP/1.0" ||
  v == bytesOf "HTTP/1.1" || v == bytesOf "HTTP/2"

/-- `ParsingError` from `parser.rs`; the token is carried as its bytes.
The enum has exactly these two variants. -/
inductive ParsingError where
  | InvalidMethod (token : List Nat)
  | InvalidVersion (token : List Nat)
deriving DecidableEq, Repr

/-- Decidable equality for `Except`, so that concrete runs of the fallible
transitions can be checked by evaluation. -/
instance {ε α : Type} [DecidableEq ε] [DecidableEq α] :
    DecidableEq (Except ε α) := fun x y =>
  match x, y with
  | Except.error a, Except.error b =>
    if h : a = b then Decidable.isTrue (by subst h; rfl)
    else Decidable.isFalse (fun c => h (Except.error.inj c))
  | Except.ok a, Except.ok b =>
    if h : a = b then Decidable.isTrue (by subst h; rfl)
    else Decidable.isFalse (fun c => h (Except.ok.inj c))
  | Except.error _, Except.ok _ => Decidable.isFalse (fun c => Except.noConfusion c)
  | Except.ok _, Except.error _ => Decidable.isFalse (fun c => Except.noConfusion c)

/-- The `Request` record built by the parser.  The `HashMap` of the source
is modelled as an association list with unique keys (see `insert_header`). -/
structure Request where
  method : List Nat
  request_uri : List Nat
  http_version : List Nat
  header : List (List Nat × List Nat)
  body : List Nat
deriving DecidableEq, Repr

/-- `Request::new()`. -/
def Request.new : Request := ⟨[], [], [], [], []⟩

/-- `HttpRequestParser`: remaining packet plus the request being built.
The Rust type-state tag carries no data; each state's `parse` is a separate
function below, so the tag is omitted. -/
structure HttpRequestParser where
  packet : List Nat
  request : Request
deriving DecidableEq, Repr

/-- `HashMap::insert`: overwrite the value at an existing key, else add
the entry. -/
def insert_header (m : List (List Nat × List Nat)) (k v : List Nat) :
    List (List Nat × List Nat) :=
  match m with
  | [] => [(k, v)]
  | (k0, v0) :: rest =>
    if k0 == k then (k, v) :: rest else (k0, v0) :: insert_header rest k v

/-- `skip_spaces`: the loop `while curr < len && bytes[curr] == SPACE`,
then `packet = &packet[curr..]`.  Bounds-checked in the source, so total. -/
def skip_spaces : List Nat → List Nat
  | [] => []
  | b :: rest => if b == SPACE then skip_spaces rest else b :: rest

/-- `skip_crlf`: reads `bytes[0]` and `bytes[1]` with no bounds check, so
it panics (`none`) when fewer than two bytes remain; otherwise it drops a
leading CR LF and is the identity when the first two bytes are not CR LF. -/
def skip_crlf (p : List Nat) : Option (List Nat) :=
  match p with
  | a :: b :: rest => if is_crlf a b then some rest else some (a :: b :: rest)
  | _ => none

/-- `parse_until_char`: bounded scan to the first occurrence of `chr` (or
end of input); returns the prefix before it and the rest starting at it. -/
def parse_until_char (chr : Nat) : List Nat → List Nat × List Nat
  | [] => ([], [])
  | b :: rest =>
    if b == chr then ([], b :: rest)
    else
      let r := parse_until_char chr rest
      (b :: r.1, r.2)

/-- The Method-state scan `while bytes[curr] != SPACE { curr += 1 }`:
split at the first space, returning (token before it, rest after it);
`none` models the out-of-bounds panic when the input has no space. -/
def find_space : List Nat → Option (List Nat × List Nat)
  | [] => none
  | b :: rest =>
    if b == SPACE then some ([], rest)
    else
      match find_space rest with
      | some (pre, post) => some (b :: pre, post)
      | none => none

/-- The Version-state scan `while !is_crlf(&[bytes[curr], bytes[curr+1]])`:
split at the first CR LF pair, returning (prefix, suffix after the pair);
`none` models the panic when the scan runs off the end without finding one. -/
def split_crlf : List Nat → Option (List Nat × List Nat)
  | a :: b :: rest =>
    if is_crlf a b then some ([], rest)
    else
      match split_crlf (b :: rest) with
      | some (pre, post) => some (a :: pre, post)
      | none => none
  | _ => none

/-- First scan of `parse_line`:
`while !is_whitespace(bytes[curr]) && bytes[curr] != COLON` — split at the
first whitespace-or-colon byte; `none` models the panic at end of input. -/
def key_split : List Nat → Option (List Nat × List Nat)
  | [] => none
  | b :: rest =>
    if is_whitespace b || b == COLON then some ([], b :: rest)
    else
      match key_split rest with
      | some (k, r) => some (b :: k, r)
      | none => none

/-- Second scan of `parse_line`:
`while is_whitespace(bytes[curr]) || bytes[curr] == COLON` — count the
separator bytes and return (their number `j`, the rest); `none` models the
panic when the whole remainder is separator bytes. -/
def sep_split : List Nat → Option (Nat × List Nat)
  | [] => none
  | b :: rest =>
    if is_whitespace b || b == COLON then
      match sep_split rest with
      | some (j, r) => some (j + 1, r)
      | none => none
    else some (0, b :: rest)

/-- `HttpRequestParser::<Header>::parse_line`, returning
(key, value, new packet).  The source does **not** reset `curr` between the
separator scan and the value scan: after the separator of length `j` is
dropped, the value scan starts at index `j` of the new packet, so the CR LF
it finds is the first one at index ≥ `j` (`split_crlf (p2.drop j)`), the
value is `p2.take (j + r)` where the pair sits at `j + r`, and the packet
becomes everything after that pair.  `none` models any of the three scans
panicking, and also `&packet[0..curr]`/`&packet[curr+2..]` slicing past the
end when the remainder after the separator is shorter than `curr + 2`. -/
def parse_line (p : List Nat) : Option (List Nat × List Nat × List Nat) :=
  match key_split p with
  | none => none
  | some (key, p1) =>
    match sep_split p1 with
    | none => none
    | some (j, p2) =>
      match split_crlf (p2.drop j) with
      | none => none
      | some (pre, post) => some (key, p2.take (j + pre.length), post)

theorem key_split_length {p k r : List Nat} (h : key_split p = some (k, r)) :
    r.length ≤ p.length := by
  induction p generalizing k r with
  | nil => simp [key_split] at h
  | cons b rest ih =>
    unfold key_split at h
    cases hb : (is_whitespace b || b == COLON) with
    | true =>
      simp only [hb, if_true, Option.some.injEq, Prod.mk.injEq] at h
      obtain ⟨-, hr⟩ := h
      subst hr
      exact Nat.le_refl _
    | false =>
      cases h2 : key_split rest with
      | none => simp [hb, h2] at h
      | some kr =>
        obtain ⟨k2, r2⟩ := kr
        simp only [hb, Bool.false_eq_true, if_false, h2, Option.some.injEq,
          Prod.mk.injEq] at h
        obtain ⟨-, hr⟩ := h
        subst hr
        have := ih h2
        simp only [List.length_cons]
        omega

theorem sep_split_length {p r : List Nat} {j : Nat}
    (h : sep_split p = some (j, r)) : r.length ≤ p.length := by
  induction p generalizing j r with
  | nil => simp [sep_split] at h
  | cons b rest ih =>
    unfold sep_split at h
    cases hb : (is_whitespace b || b == COLON) with
    | true =>
      cases h2 : sep_split rest with
      | none => simp [hb, h2] at h
      | some jr =>
        obtain ⟨j2, r2⟩ := jr
        simp only [hb, if_true, h2, Option.some.injEq, Prod.mk.injEq] at h
        obtain ⟨-, hr⟩ := h
        subst hr
        have := ih h2
        simp only [List.length_cons]
        omega
    | false =>
      simp only [hb, Bool.false_eq_true, if_false, Option.some.injEq,
        Prod.mk.injEq] at h
      obtain ⟨-, hr⟩ := h
      subst hr
      simp

theorem split_crlf_length {p pre post : List Nat}
    (h : split_crlf p = some (pre, post)) : post.length + 2 ≤ p.length := by
  induction p generalizing pre post with
  | nil => simp [split_crlf] at h
  | cons a rest ih =>
    cases rest with
    | nil => simp [split_crlf] at h
    | cons b rest2 =>
      unfold split_crlf at h
      cases hab : is_crlf a b with
      | true =>
        simp only [hab, if_true, Option.some.injEq, Prod.mk.injEq] at h
        obtain ⟨-, hr⟩ := h
        subst hr
        simp
      | false =>
        cases h2 : split_crlf (b :: rest2) with
        | none => simp [hab, h2] at h
        | some pp =>
          obtain ⟨pre2, post2⟩ := pp
          simp only [hab, Bool.false_eq_true, if_false, h2, Option.some.injEq,
            Prod.mk.injEq] at h
          obtain ⟨-, hr⟩ := h
          subst hr
          have := ih h2
          simp only [List.length_cons] at *
          omega

/-- `parse_line` consumes the key, the separator and everything up to and
including the CR LF it finds, so it strictly shrinks the packet.  This is
the measure justifying the recursion of the header loop. -/
theorem parse_line_shrinks {p k v q : List Nat}
    (h : parse_line p = some (k, v, q)) : q.length < p.length := by
  unfold parse_line at h
  split at h
  · simp at h
  rename_i key p1 hk
  split at h
  · simp at h
  rename_i j p2 hs
  split at h
  · simp at h
  rename_i pre post hc
  simp only [Option.some.injEq, Prod.mk.injEq] at h
  obtain ⟨-, -, hq⟩ := h
  subst hq
  have h1 := key_split_length hk
  have h2 := sep_split_length hs
  have h3 := split_crlf_length hc
  have h4 : (p2.drop j).length ≤ p2.length := by
    simp [List.length_drop]
  omega

/-- One fuel-indexed unrolling of the header-block loop of
`impl Parse for HttpRequestParser<'a, Header>`:
`while bytes.len() >= 2 && !is_crlf(&[bytes[0], bytes[1]]) { self.parse_line() }`.
Returns the accumulated header map and the remaining packet at loop exit;
`none` models a panic inside `parse_line`.  The fuel is only a structural
termination device: `header_lines` below supplies more fuel than the loop
can consume (each iteration strictly shrinks the packet,
`parse_line_shrinks`), and `header_lines_eq` proves the fuel-free defining
equation of the loop, so no behaviour depends on the fuel value. -/
def header_lines_go : Nat → List Nat → List (List Nat × List Nat) →
    Option (List (List Nat × List Nat) × List Nat)
  | fuel + 1, a :: b :: rest, m =>
    if is_crlf a b then some (m, a :: b :: rest)
    else
      match parse_line (a :: b :: rest) with
      | none => none
      | some (k, v, q) => header_lines_go fuel q (insert_header m k v)
  | _, p, m => some (m, p)

/-- The header-block loop itself. -/
def header_lines (p : List Nat) (m : List (List Nat × List Nat)) :
    Option (List (List Nat × List Nat) × List Nat) :=
  header_lines_go (p.length + 1) p m

theorem header_lines_go_irrel (fuel fuel2 : Nat) (p : List Nat)
    (m : List (List Nat × List Nat)) (hf : p.length < fuel)
    (hf2 : p.length < fuel2) :
    header_lines_go fuel p m = header_lines_go fuel2 p m := by
  induction fuel using Nat.strong_induction_on generalizing fuel2 p m with
  | _ fuel ih =>
    match fuel, hf with
    | f + 1, hf =>
      match fuel2, hf2 with
      | f2 + 1, hf2 =>
        cases p with
        | nil => rfl
        | cons a rest =>
          cases rest with
          | nil => rfl
          | cons b rest2 =>
            show header_lines_go (f + 1) (a :: b :: rest2) m =
              header_lines_go (f2 + 1) (a :: b :: rest2) m
            unfold header_lines_go
            cases hab : is_crlf a b with
            | true => simp [hab]
            | false =>
              simp only [hab, Bool.false_eq_true, if_false]
              cases hl : parse_line (a :: b :: rest2) with
              | none => rfl
              | some kvq =>
                obtain ⟨k, v, q⟩ := kvq
                have hq := parse_line_shrinks hl
                simp only [List.length_cons] at hq hf hf2
                exact ih f (by omega) f2 q (insert_header m k v)
                  (by omega) (by omega)

/-- `header_lines` satisfies the defining equation of the Rust `while`
loop: when at least two bytes remain and they are not CR LF, it runs
`parse_line` once and continues on what is left; otherwise it stops. -/
theorem header_lines_eq (p : List Nat) (m : List (List Nat × List Nat)) :
    header_lines p m =
      match p with
      | a :: b :: _ =>
        if is_crlf a b then some (m, p)
        else
          match parse_line p with
          | none => none
          | some (k, v, q) => header_lines q (insert_header m k v)
      | _ => some (m, p) := by
  cases p with
  | nil => rfl
  | cons a rest =>
    cases rest with
    | nil => rfl
    | cons b rest2 =>
      show header_lines_go (rest2.length + 2 + 1) (a :: b :: rest2) m = _
      unfold header_lines_go
      cases hab : is_crlf a b with
      | true => simp [hab]
      | false =>
        simp only [hab, Bool.false_eq_true, if_false]
        cases hl : parse_line (a :: b :: rest2) with
        | none => rfl
        | some kvq =>
          obtain ⟨k, v, q⟩ := kvq
          have hq := parse_line_shrinks hl
          simp only [List.length_cons] at hq
          exact header_lines_go_irrel _ _ q (insert_header m k v)
            (by omega) (by omega)

/-- `HttpRequestParser::<RequestLine<Method>>::parse`: scan to the first
space, validate the token, store it, skip the space and any further
spaces.  `none` models the panic when the packet contains no space. -/
def method_parse (s : HttpRequestParser) :
    Option (Except ParsingError HttpRequestParser) :=
  match find_space s.packet with
  | none => none
  | some (method, rest) =>
    if is_valid_method method then
      some (Except.ok ⟨skip_spaces rest, { s.request with method := method }⟩)
    else
      some (Except.error (ParsingError.InvalidMethod method))

/-- `HttpRequestParser::<RequestLine<Uri>>::parse`: take everything up to
the next space (or end of input), then skip spaces.  The source wraps the
result in `Ok` unconditionally; it is total, so the wrapper is dropped. -/
def uri_parse (s : HttpRequestParser) : HttpRequestParser :=
  let r := parse_until_char SPACE s.packet
  ⟨skip_spaces r.2, { s.request with request_uri := r.1 }⟩

/-- `HttpRequestParser::<RequestLine<Version>>::parse`: scan to the first
CR LF, validate the token, store it, skip past the CR LF.  `none` models
the panic when no CR LF exists in the packet. -/
def version_parse (s : HttpRequestParser) :
    Option (Except ParsingError HttpRequestParser) :=
  match split_crlf s.packet with
  | none => none
  | some (version, rest) =>
    if is_valid_version version then
      some (Except.ok ⟨rest, { s.request with http_version := version }⟩)
    else
      some (Except.error (ParsingError.InvalidVersion version))

/-- `impl Parse for HttpRequestParser<'a, Header>`: run the header-block
loop, then `skip_crlf` (which panics when fewer than two bytes remain). -/
def header_parse (s : HttpRequestParser) : Option HttpRequestParser :=
  match header_lines s.packet s.request.header with
  | none => none
  | some (m, rest) =>
    match skip_crlf rest with
    | none => none
    | some rest2 => some ⟨rest2, { s.request with header := m }⟩

/-- `impl Parse for HttpRequestParser<'a, Body>`: the whole remaining
packet becomes the body; yields the finished `Request`. -/
def body_parse (s : HttpRequestParser) : Request :=
  { s.request with body := s.packet }

/-- `HttpRequestParser::start`. -/
def start (input : List Nat) : HttpRequestParser := ⟨input, Request.new⟩

/-- Driving the parser from `start` through the Method, Uri, Version,
Header and Body states, as `main.rs` does with successive `parse()` calls.
`none` models a panic in any state; `some (Except.error e)` an error
returned by a fallible transition. -/
def parse_request (input : List Nat) : Option (Except ParsingError Request) :=
  match method_parse (start input) with
  | none => none
  | some (Except.error e) => some (Except.error e)
  | some (Except.ok s1) =>
    match version_parse (uri_parse s1) with
    | none => none
    | some (Except.error e) => some (Except.error e)
    | some (Except.ok s3) =>
      match header_parse s3 with
      | none => none
      | some s4 => some (Except.ok (body_parse s4))

theorem skip_spaces_suffix (p : List Nat) : skip_spaces p <:+ p := by
  induction p with
  | nil => exact List.suffix_rfl
  | cons b rest ih =>
    unfold skip_spaces
    cases hb : (b == SPACE) with
    | true => simp only [hb, if_true]; exact ih.trans (List.suffix_cons b rest)
    | false => simp only [hb, Bool.false_eq_true, if_false]; exact List.suffix_rfl

theorem skip_crlf_suffix {p q : List Nat} (h : skip_crlf p = some q) :
    q <:+ p := by
  match p, h with
  | a :: b :: rest, h =>
    unfold skip_crlf at h
    cases hab : is_crlf a b with
    | true =>
      simp only [hab, if_true, Option.some.injEq] at h
      subst h
      exact (List.suffix_cons b rest).trans (List.suffix_cons a (b :: rest))
    | false =>
      simp only [hab, Bool.false_eq_true, if_false, Option.some.injEq] at h
      subst h
      exact List.suffix_rfl

theorem parse_until_char_suffix (c : Nat) (p : List Nat) :
    (parse_until_char c p).2 <:+ p := by
  induction p with
  | nil => exact List.suffix_rfl
  | cons b rest ih =>
    unfold parse_until_char
    cases hb : (b == c) with
    | true => simp only [hb, if_true]; exact List.suffix_rfl
    | false =>
      simp only [hb, Bool.false_eq_true, if_false]
      exact ih.trans (List.suffix_cons b rest)

theorem find_space_suffix {p k r : List Nat} (h : find_space p = some (k, r)) :
    r <:+ p := by
  induction p generalizing k r with
  | nil => simp [find_space] at h
  | cons b rest ih =>
    unfold find_space at h
    cases hb : (b == SPACE) with
    | true =>
      simp only [hb, if_true, Option.some.injEq, Prod.mk.injEq] at h
      obtain ⟨-, hr⟩ := h
      subst hr
      exact List.suffix_cons b rest
    | false =>
      cases h2 : find_space rest with
      | none => simp [hb, h2] at h
      | some kr =>
        obtain ⟨k2, r2⟩ := kr
        simp only [hb, Bool.false_eq_true, if_false, h2, Option.some.injEq,
          Prod.mk.injEq] at h
        obtain ⟨-, hr⟩ := h
        subst hr
        exact (ih h2).trans (List.suffix_cons b rest)

theorem split_crlf_suffix {p pre post : List Nat}
    (h : split_crlf p = some (pre, post)) : post <:+ p := by
  induction p generalizing pre post with
  | nil => simp [split_crlf] at h
  | cons a rest ih =>
    cases rest with
    | nil => simp [split_crlf] at h
    | cons b rest2 =>
      unfold split_crlf at h
      cases hab : is_crlf a b with
      | true =>
        simp only [hab, if_true, Option.some.injEq, Prod.mk.injEq] at h
        obtain ⟨-, hr⟩ := h
        subst hr
        exact (List.suffix_cons b rest2).trans (List.suffix_cons a (b :: rest2))
      | false =>
        cases h2 : split_crlf (b :: rest2) with
        | none => simp [hab, h2] at h
        | some pp =>
          obtain ⟨pre2, post2⟩ := pp
          simp only [hab, Bool.false_eq_true, if_false, h2, Option.some.injEq,
            Prod.mk.injEq] at h
          obtain ⟨-, hr⟩ := h
          subst hr
          exact (ih h2).trans (List.suffix_cons a (b :: rest2))

theorem key_split_suffix {p k r : List Nat} (h : key_split p = some (k, r)) :
    r <:+ p := by
  induction p generalizing k r with
  | nil => simp [key_split] at h
  | cons b rest ih =>
    unfold key_split at h
    cases hb : (is_whitespace b || b == COLON) with
    | true =>
      simp only [hb, if_true, Option.some.injEq, Prod.mk.injEq] at h
      obtain ⟨-, hr⟩ := h
      subst hr
      exact List.suffix_rfl
    | false =>
      cases h2 : key_split rest with
      | none => simp [hb, h2] at h
      | some kr =>
        obtain ⟨k2, r2⟩ := kr
        simp only [hb, Bool.false_eq_true, if_false, h2, Option.some.injEq,
          Prod.mk.injEq] at h
        obtain ⟨-, hr⟩ := h
        subst hr
        exact (ih h2).trans (List.suffix_cons b rest)

theorem sep_split_suffix {p r : List Nat} {j : Nat}
    (h : sep_split p = some (j, r)) : r <:+ p := by
  induction p generalizing j r with
  | nil => simp [sep_split] at h
  | cons b rest ih =>
    unfold sep_split at h
    cases hb : (is_whitespace b || b == COLON) with
    | true =>
      cases h2 : sep_split rest with
      | none => simp [hb, h2] at h
      | some jr =>
        obtain ⟨j2, r2⟩ := jr
        simp only [hb, if_true, h2, Option.some.injEq, Prod.mk.injEq] at h
        obtain ⟨-, hr⟩ := h
        subst hr
        exact (ih h2).trans (List.suffix_cons b rest)
    | false =>
      simp only [hb, Bool.false_eq_true, if_false, Option.some.injEq,
        Prod.mk.injEq] at h
      obtain ⟨-, hr⟩ := h
      subst hr
      exact List.suffix_rfl

theorem parse_line_suffix {p k v q : List Nat}
    (h : parse_line p = some (k, v, q)) : q <:+ p := by
  unfold parse_line at h
  split at h
  · simp at h
  rename_i key p1 hk
  split at h
  · simp at h
  rename_i j p2 hs
  split at h
  · simp at h
  rename_i pre post hc
  simp only [Option.some.injEq, Prod.mk.injEq] at h
  obtain ⟨-, -, hq⟩ := h
  subst hq
  exact ((split_crlf_suffix hc).trans (List.drop_suffix j p2)).trans
    ((sep_split_suffix hs).trans (key_split_suffix hk))

theorem header_lines_go_suffix {fuel : Nat} {p rest : List Nat}
    {m m2 : List (List Nat × List Nat)}
    (h : header_lines_go fuel p m = some (m2, rest)) : rest <:+ p := by
  induction fuel generalizing p m m2 rest with
  | zero =>
    unfold header_lines_go at h
    simp only [Option.some.injEq, Prod.mk.injEq] at h
    obtain ⟨-, hr⟩ := h
    subst hr
    exact List.suffix_rfl
  | succ f ih =>
    match p, h with
    | [], h =>
      simp only [header_lines_go, Option.some.injEq, Prod.mk.injEq] at h
      obtain ⟨-, hr⟩ := h
      subst hr
      exact List.suffix_rfl
    | [a], h =>
      simp only [header_lines_go, Option.some.injEq, Prod.mk.injEq] at h
      obtain ⟨-, hr⟩ := h
      subst hr
      exact List.suffix_rfl
    | a :: b :: rest2, h =>
      unfold header_lines_go at h
      cases hab : is_crlf a b with
      | true =>
        simp only [hab, if_true, Option.some.injEq, Prod.mk.injEq] at h
        obtain ⟨-, hr⟩ := h
        subst hr
        exact List.suffix_rfl
      | false =>
        simp only [hab, Bool.false_eq_true, if_false] at h
        cases hl : parse_line (a :: b :: rest2) with
        | none => rw [hl] at h; simp at h
        | some kvq =>
          obtain ⟨k, v, q⟩ := kvq
          rw [hl] at h
          exact (ih h).trans (parse_line_suffix hl)

theorem header_lines_suffix {p rest : List Nat}
    {m m2 : List (List Nat × List Nat)}
    (h : header_lines p m = some (m2, rest)) : rest <:+ p :=
  header_lines_go_suffix h

/-- Whether some adjacent pair of bytes in the list is CR LF, matching the
stepping of the Version-state scan. -/
def has_crlf : List Nat → Bool
  | a :: b :: rest => is_crlf a b || has_crlf (b :: rest)
  | _ => false

theorem find_space_append {pre : List Nat} (post : List Nat)
    (h : SPACE ∉ pre) : find_space (pre ++ SPACE :: post) = some (pre, post) := by
  induction pre with
  | nil => simp [find_space]
  | cons b rest ih =>
    simp only [List.mem_cons, not_or] at h
    obtain ⟨h1, h2⟩ := h
    have hb : (b == SPACE) = false := by
      simp only [beq_eq_false_iff_ne]
      exact fun e => h1 e.symm
    simp only [List.cons_append]
    unfold find_space
    simp only [hb, Bool.false_eq_true, if_false, ih h2]

theorem split_crlf_append {pre : List Nat} (post : List Nat)
    (h : has_crlf pre = false) :
    split_crlf (pre ++ CR :: LF :: post) = some (pre, post) := by
  induction pre with
  | nil =>
    simp only [List.nil_append]
    unfold split_crlf
    simp [is_crlf]
  | cons a rest ih =>
    cases rest with
    | nil =>
      simp only [List.cons_append, List.nil_append]
      unfold split_crlf
      have hac : is_crlf a CR = false := by simp [is_crlf, CR, LF]
      simp only [hac, Bool.false_eq_true, if_false]
      have : split_crlf (CR :: LF :: post) = some ([], post) := by
        unfold split_crlf
        simp [is_crlf]
      simp [this]
    | cons b r =>
      unfold has_crlf at h
      simp only [Bool.or_eq_false_iff] at h
      obtain ⟨hab, hbr⟩ := h
      simp only [List.cons_append]
      unfold split_crlf
      have hr := ih hbr
      simp only [List.cons_append] at hr
      simp only [hab, Bool.false_eq_true, if_false, hr]

/-- C1: on the spec's round-trip input
`"GET /a HTTP/1.1\r\nHost: x\r\n\r\nbody"` the Method, Uri and Version
states succeed, but the Header-state advance panics (`none`), so the full
run does not produce a completed Request at all.  `parse_line` takes the
value scan up at the separator's length 2, misses the CR LF right after
`x`, swallows the blank line into the value `"x\r\n"`, and the loop then
re-enters on `"body"`, where the key scan runs off the end. -/
theorem round_trip_input_crashes :
    parse_request (bytesOf "GET /a HTTP/1.1\r\nHost: x\r\n\r\nbody") = none ∧
    method_parse (start (bytesOf "GET /a HTTP/1.1\r\nHost: x\r\n\r\nbody")) =
      some (Except.ok ⟨bytesOf "/a HTTP/1.1\r\nHost: x\r\n\r\nbody",
        { Request.new with method := bytesOf "GET" }⟩) ∧
    uri_parse ⟨bytesOf "/a HTTP/1.1\r\nHost: x\r\n\r\nbody",
        { Request.new with method := bytesOf "GET" }⟩ =
      ⟨bytesOf "HTTP/1.1\r\nHost: x\r\n\r\nbody",
        { Request.new with
          method := bytesOf "GET"
          request_uri := bytesOf "/a" }⟩ ∧
    version_parse ⟨bytesOf "HTTP/1.1\r\nHost: x\r\n\r\nbody",
        { Request.new with
          method := bytesOf "GET"
          request_uri := bytesOf "/a" }⟩ =
      some (Except.ok ⟨bytesOf "Host: x\r\n\r\nbody",
        { Request.new with
          method := bytesOf "GET"
          request_uri := bytesOf "/a"
          http_version := bytesOf "HTTP/1.1" }⟩) ∧
    parse_line (bytesOf "Host: x\r\n\r\nbody") =
      some (bytesOf "Host", bytesOf "x\r\n", bytesOf "body") ∧
    header_parse ⟨bytesOf "Host: x\r\n\r\nbody",
        { Request.new with
          method := bytesOf "GET"
          request_uri := bytesOf "/a"
          http_version := bytesOf "HTTP/1.1" }⟩ = none := by
  decide

/-- C2: a scan that runs off the end of the buffer while searching for a
required delimiter panics (modelled `none`) instead of returning a
`TruncatedInput` error value — indeed `ParsingError` has no such variant.
Shown for the method scan with no space (`"GET"`), the version scan with
no CR LF, and the header key scan (`"body"`). -/
theorem truncated_input_panics_not_error :
    parse_request (bytesOf "GET") = none ∧
    parse_request (bytesOf "GET /a HTTP/1.1") = none ∧
    method_parse (start (bytesOf "GET")) = none ∧
    version_parse ⟨bytesOf "HTTP/1.1", Request.new⟩ = none ∧
    key_split (bytesOf "body") = none ∧
    parse_line (bytesOf "body") = none := by
  decide

/-- C3: when the bytes before the first space form the token `pre`, the
Method-state advance succeeds with exactly that token stored iff `pre` is
one of the eight valid methods, and otherwise fails with `InvalidMethod`
carrying exactly `pre`. -/
theorem method_state_token_spec (pre post : List Nat) (req : Request)
    (h : SPACE ∉ pre) :
    method_parse ⟨pre ++ SPACE :: post, req⟩ =
      if is_valid_method pre
      then some (Except.ok ⟨skip_spaces post, { req with method := pre }⟩)
      else some (Except.error (ParsingError.InvalidMethod pre)) := by
  simp only [method_parse, find_space_append post h]

/-- Witness for C3: instantiated at the valid token `GET` with both
hypothesis and conclusion concrete. -/
theorem method_state_token_spec_witness : (SPACE ∉ bytesOf "GET") ∧
    method_parse ⟨bytesOf "GET" ++ SPACE :: bytesOf "/a", Request.new⟩ =
      (if is_valid_method (bytesOf "GET")
       then some (Except.ok ⟨skip_spaces (bytesOf "/a"),
         { Request.new with method := bytesOf "GET" }⟩)
       else some (Except.error (ParsingError.InvalidMethod (bytesOf "GET")))) :=
  ⟨by decide,
   method_state_token_spec (bytesOf "GET") (bytesOf "/a") Request.new (by decide)⟩

/-- C4: when the bytes before the first CR LF form the token `pre`, the
Version-state advance succeeds with exactly that token stored iff `pre` is
one of the four valid versions, and otherwise fails with `InvalidVersion`
carrying exactly `pre`. -/
theorem version_state_token_spec (pre post : List Nat) (req : Request)
    (h : has_crlf pre = false) :
    version_parse ⟨pre ++ CR :: LF :: post, req⟩ =
      if is_valid_version pre
      then some (Except.ok ⟨post, { req with http_version := pre }⟩)
      else some (Except.error (ParsingError.InvalidVersion pre)) := by
  simp only [version_parse, split_crlf_append post h]

/-- Witness for C4: instantiated at the invalid token `HTTP/0.9` with both
hypothesis and conclusion concrete. -/
theorem version_state_token_spec_witness :
    (has_crlf (bytesOf "HTTP/0.9") = false) ∧
    version_parse ⟨bytesOf "HTTP/0.9" ++ CR :: LF :: bytesOf "rest",
        Request.new⟩ =
      (if is_valid_version (bytesOf "HTTP/0.9")
       then some (Except.ok ⟨bytesOf "rest",
         { Request.new with http_version := bytesOf "HTTP/0.9" }⟩)
       else some (Except.error
         (ParsingError.InvalidVersion (bytesOf "HTTP/0.9")))) :=
  ⟨by decide,
   version_state_token_spec (bytesOf "HTTP/0.9") (bytesOf "rest") Request.new
     (by decide)⟩

/-- C5: on the header block `"X: 1\r\nX: 2\r\n\r\n"` the Header-state
advance does **not** bind `X` to `2`: the first `parse_line`'s value scan
starts at the separator's length 2, misses the CR LF right after `1`, and
swallows the whole second line, producing the single binding
`X ↦ "1\r\nX: 2"`. -/
theorem duplicate_header_example_eval :
    header_parse ⟨bytesOf "X: 1\r\nX: 2\r\n\r\n", Request.new⟩ =
      some ⟨[], { Request.new with
        header := [(bytesOf "X", bytesOf "1\r\nX: 2")] }⟩ ∧
    insert_header (insert_header [] (bytesOf "X") (bytesOf "1"))
      (bytesOf "X") (bytesOf "2") = [(bytesOf "X", bytesOf "2")] := by
  decide

/-- C6: `skip_crlf` advances past a leading CR LF, leaves the packet
unchanged when two bytes remain that are not CR LF — but when fewer than
two bytes remain it reads `bytes[0]`/`bytes[1]` unchecked and panics
(`none`) instead of leaving the cursor unchanged. -/
theorem skip_crlf_short_input_panics :
    skip_crlf (bytesOf "\r\nab") = some (bytesOf "ab") ∧
    skip_crlf (bytesOf "ab") = some (bytesOf "ab") ∧
    skip_crlf (bytesOf "x") = none ∧
    skip_crlf ([] : List Nat) = none := by
  decide

/-- C7: every cursor operation — `skip_spaces`, `skip_crlf`,
`parse_until_char`, `parse_line`, and the Method/Uri/Version/Header state
advances — leaves the remaining packet a suffix of what it was before, so
along any run the packet is always a suffix of the original buffer (by
transitivity of the suffix relation); the cursor never rewinds. -/
theorem cursor_ops_suffix (p : List Nat) :
    (skip_spaces p <:+ p) ∧
    (∀ q, skip_crlf p = some q → q <:+ p) ∧
    (∀ c, (parse_until_char c p).2 <:+ p) ∧
    (∀ k v q, parse_line p = some (k, v, q) → q <:+ p) ∧
    (∀ req t, method_parse ⟨p, req⟩ = some (Except.ok t) → t.packet <:+ p) ∧
    (∀ req, (uri_parse ⟨p, req⟩).packet <:+ p) ∧
    (∀ req t, version_parse ⟨p, req⟩ = some (Except.ok t) → t.packet <:+ p) ∧
    (∀ req t, header_parse ⟨p, req⟩ = some t → t.packet <:+ p) := by
  refine ⟨skip_spaces_suffix p, fun q h => skip_crlf_suffix h,
    fun c => parse_until_char_suffix c p, fun k v q h => parse_line_suffix h,
    ?_, ?_, ?_, ?_⟩
  · intro req t h
    simp only [method_parse] at h
    split at h
    · simp at h
    rename_i method rest hf
    split at h
    · simp only [Option.some.injEq, Except.ok.injEq] at h
      subst h
      exact (skip_spaces_suffix rest).trans (find_space_suffix hf)
    · simp at h
  · intro req
    exact (skip_spaces_suffix _).trans (parse_until_char_suffix SPACE p)
  · intro req t h
    simp only [version_parse] at h
    split at h
    · simp at h
    rename_i version rest hc
    split at h
    · simp only [Option.some.injEq, Except.ok.injEq] at h
      subst h
      exact split_crlf_suffix hc
    · simp at h
  · intro req t h
    simp only [header_parse] at h
    split at h
    · simp at h
    rename_i m rest hl
    split at h
    · simp at h
    rename_i rest2 hc
    simp only [Option.some.injEq] at h
    subst h
    exact (skip_crlf_suffix hc).trans (header_lines_suffix hl)

/-- Witness for C7: instantiated at the packet `"\r\nx"`, discharging the
`skip_crlf` hypothesis concretely. -/
theorem cursor_ops_suffix_witness :
    (skip_spaces (bytesOf "\r\nx") <:+ bytesOf "\r\nx") ∧
    (bytesOf "x" <:+ bytesOf "\r\nx") :=
  ⟨(cursor_ops_suffix (bytesOf "\r\nx")).1,
   (cursor_ops_suffix (bytesOf "\r\nx")).2.1 (bytesOf "x") (by decide)⟩

/-- C8: each successful `parse_line` call strictly shrinks the remaining
packet (it consumes at least one full line: key, separator and a CR LF),
which is exactly the measure by which the header-block loop
(`header_lines`, cf. `header_lines_eq`) terminates. -/
theorem header_iteration_shrinks (p k v q : List Nat)
    (h : parse_line p = some (k, v, q)) : q.length < p.length :=
  parse_line_shrinks h

/-- Witness for C8: a concrete successful `parse_line` call together with
the strict length decrease it yields. -/
theorem header_iteration_shrinks_witness :
    parse_line (bytesOf "K:V\r\n") = some (bytesOf "K", bytesOf "V", []) ∧
    ([] : List Nat).length < (bytesOf "K:V\r\n").length :=
  ⟨by decide,
   header_iteration_shrinks (bytesOf "K:V\r\n") (bytesOf "K") (bytesOf "V") []
     (by decide)⟩

/-- C9: the header lines `"Key:Value\r\n"`, `"Key: Value\r\n"` and
`"Key :  Value\r\n"` all parse to the same pair (`Key`, `Value`), both as
single `parse_line` calls and through the Header-state advance. -/
theorem separator_tolerance_eval :
    parse_line (bytesOf "Key:Value\r\n") =
      some (bytesOf "Key", bytesOf "Value", []) ∧
    parse_line (bytesOf "Key: Value\r\n") =
      some (bytesOf "Key", bytesOf "Value", []) ∧
    parse_line (bytesOf "Key :  Value\r\n") =
      some (bytesOf "Key", bytesOf "Value", []) ∧
    header_parse ⟨bytesOf "Key:Value\r\n\r\n", Request.new⟩ =
      some ⟨[], { Request.new with
        header := [(bytesOf "Key", bytesOf "Value")] }⟩ ∧
    header_parse ⟨bytesOf "Key: Value\r\n\r\n", Request.new⟩ =
      some ⟨[], { Request.new with
        header := [(bytesOf "Key", bytesOf "Value")] }⟩ ∧
    header_parse ⟨bytesOf "Key :  Value\r\n\r\n", Request.new⟩ =
      some ⟨[], { Request.new with
        header := [(bytesOf "Key", bytesOf "Value")] }⟩ := by
  decide

/-- C10: because the separator scan of `parse_line` classifies CR and LF
as whitespace, a header line with an empty value (`"K:\r\n"`) has its
CR LF consumed as part of the separator, and the value span is taken from
the following line: the block `"K:\r\nA: BBBB\r\n\r\n"` yields the single
binding `K ↦ "A: BBBB"`. -/
theorem empty_value_merges_next_line :
    header_parse ⟨bytesOf "K:\r\nA: BBBB\r\n\r\n", Request.new⟩ =
      some ⟨[], { Request.new with
        header := [(bytesOf "K", bytesOf "A: BBBB")] }⟩ ∧
    is_whitespace CR = true ∧ is_whitespace LF = true := by
  decide
